import Mathlib

/-!
Shallow embedding of the `fsim` finite-automaton library (src/dfa.rs, src/nfa.rs).

States are `Nat` (the Rust `State(usize)` newtype), symbols are `Char`,
`HashSet` becomes `Finset`, and a `HashMap k v` is modelled as a pair of a
key set `tfnDom : Finset k` together with a total function `tfn : k → v`;
the map's `get` is `some (tfn k)` exactly when `k ∈ tfnDom` and `none`
otherwise, its `len()` is `tfnDom.card`, and iteration over keys/values is
quantification over `tfnDom`.  Fallible constructors return `Except`.
The `while let Some(s) = worklist.pop_front()` loop of `epsilon_closure`
is embedded as a recursion on an explicit fuel argument; the fuel bound
`epsFuel` is proved sufficient below, so the embedded function computes the
same result the Rust loop does.
-/

set_option maxRecDepth 4000

namespace Fsim

/-- Reserved character used for epsilon transitions, `const EPSILON: char = '~'`. -/
def EPSILON : Char := '~'

/-- Result of simulating an automaton on an input string (shared shape of the
two Rust `SimulationResult` enums). -/
inductive SimulationResult where
  | Accepted
  | Rejected
deriving DecidableEq

/-- `DFATypeError` from src/dfa.rs. -/
inductive DFATypeError where
  | InvalidStartState
  | InvalidAcceptState
  | InvalidTransitionFunction
  | NonTotalTransitionFunction
deriving DecidableEq

/-- `NFATypeError` from src/nfa.rs. -/
inductive NFATypeError where
  | InvalidStartState
  | InvalidAcceptState
  | InvalidTransitionFunction
  | ReservedCharacterInAlphabet
deriving DecidableEq

/-- `InputError` from src/nfa.rs. -/
inductive InputError where
  | InvalidSymbol
deriving DecidableEq

/-- The `DFA` struct: `tfnDom`/`tfn` together model the
`HashMap<(State, char), State>` field `tfn`. -/
structure DFA where
  states : Finset Nat
  start : Nat
  accept : Finset Nat
  alphabet : Finset Char
  tfnDom : Finset (Nat × Char)
  tfn : Nat × Char → Nat

/-- `self.tfn.get(&k)` for a DFA. -/
def DFA.lookup (d : DFA) (k : Nat × Char) : Option Nat :=
  if k ∈ d.tfnDom then some (d.tfn k) else none

/-- `DFA::validate`: the four checks in source order. -/
def DFA.validate (numStates startIdx : Nat) (accept : Finset Nat)
    (alphabet : Finset Char) (dom : Finset (Nat × Char))
    (tfn : Nat × Char → Nat) : Except DFATypeError Unit :=
  if ¬ startIdx < numStates then .error .InvalidStartState
  else if ¬ ∀ s ∈ accept, s < numStates then .error .InvalidAcceptState
  else if ¬ ∀ s ∈ Finset.range numStates, ∀ a ∈ alphabet, (s, a) ∈ dom then
    .error .NonTotalTransitionFunction
  else if ¬ dom.card = numStates * alphabet.card ∨ ¬ ∀ k ∈ dom, tfn k < numStates then
    .error .InvalidTransitionFunction
  else .ok ()

/-- `DFA::new`: validate, then build the typed automaton
(`states = HashSet::from_iter(0..states)`). -/
def DFA.new (numStates startIdx : Nat) (accept : Finset Nat)
    (alphabet : Finset Char) (dom : Finset (Nat × Char))
    (tfn : Nat × Char → Nat) : Except DFATypeError DFA :=
  match DFA.validate numStates startIdx accept alphabet dom tfn with
  | .error e => .error e
  | .ok _ =>
      .ok { states := Finset.range numStates
            start := startIdx
            accept := accept
            alphabet := alphabet
            tfnDom := dom
            tfn := tfn }

/-- One iteration of the `for s in input.chars()` loop of `DFA::simulate`:
move to the mapped target on a hit, stay put on a miss (the `None => ()` arm). -/
def DFA.step (d : DFA) (current : Nat) (c : Char) : Nat :=
  match d.lookup (current, c) with
  | some t => t
  | none => current

/-- `DFA::simulate`. -/
def DFA.simulate (d : DFA) (input : List Char) : SimulationResult :=
  let final := input.foldl d.step d.start
  if final ∈ d.accept then .Accepted else .Rejected

/-- The `NFA` struct: `tfnDom`/`tfn` model the
`HashMap<(State, char), HashSet<State>>` field `tfn`; the `alphabet` field is
the internal alphabet (it contains `EPSILON` for every constructed NFA). -/
structure NFA where
  states : Finset Nat
  start : Nat
  accept : Finset Nat
  alphabet : Finset Char
  tfnDom : Finset (Nat × Char)
  tfn : Nat × Char → Finset Nat

/-- `self.tfn.get(&k)` for an NFA. -/
def NFA.lookup (n : NFA) (k : Nat × Char) : Option (Finset Nat) :=
  if k ∈ n.tfnDom then some (n.tfn k) else none

/-- `NFA::validate_nfa`: the five checks in source order. -/
def NFA.validate_nfa (numStates startIdx : Nat) (accept : Finset Nat)
    (alphabet : Finset Char) (dom : Finset (Nat × Char))
    (tfn : Nat × Char → Finset Nat) : Except NFATypeError Unit :=
  if ¬ startIdx < numStates then .error .InvalidStartState
  else if ¬ ∀ s ∈ accept, s < numStates then .error .InvalidAcceptState
  else if EPSILON ∈ alphabet then .error .ReservedCharacterInAlphabet
  else if ¬ ∀ k ∈ dom, k.1 < numStates ∧ (k.2 = EPSILON ∨ k.2 ∈ alphabet) then
    .error .InvalidTransitionFunction
  else if ¬ ∀ k ∈ dom, ∀ t ∈ tfn k, t < numStates then
    .error .InvalidTransitionFunction
  else .ok ()

/-- `NFA::new`: validate, then build the typed automaton, inserting `EPSILON`
into the stored alphabet (`alphabet_with_epsilon`). -/
def NFA.new (numStates startIdx : Nat) (accept : Finset Nat)
    (alphabet : Finset Char) (dom : Finset (Nat × Char))
    (tfn : Nat × Char → Finset Nat) : Except NFATypeError NFA :=
  match NFA.validate_nfa numStates startIdx accept alphabet dom tfn with
  | .error e => .error e
  | .ok _ =>
      .ok { states := Finset.range numStates
            start := startIdx
            accept := accept
            alphabet := insert EPSILON alphabet
            tfnDom := dom
            tfn := tfn }

/-- `NFA::validate_input`: every input character must belong to the stored
(internal, epsilon-containing) alphabet. -/
def NFA.validate_input (n : NFA) (input : List Char) : Except InputError Unit :=
  if ∀ c ∈ input, c ∈ n.alphabet then .ok () else .error .InvalidSymbol

/-- Enumerate a finite set of naturals as a duplicate-free list.  A Rust
`HashSet` iterates its elements in an unspecified order; this embedding fixes
the ascending order, which is one legal iteration order. -/
def finsetToList (s : Finset Nat) : List Nat :=
  (List.range (s.sup id + 1)).filter fun x => x ∈ s

/-- Worklist loop of `NFA::epsilon_closure`.  `fuel` is an upper bound on the
number of loop iterations (the Rust loop needs no fuel because each state is
queued at most once; `epsAux_run` below proves the bound `epsFuel` suffices,
so the out-of-fuel branch is never taken from `epsilon_closure`). -/
def epsAux (n : NFA) (fuel : Nat) (closure : Finset Nat)
    (worklist : List Nat) : Finset Nat :=
  match worklist with
  | [] => closure
  | s :: rest =>
    match fuel with
    | 0 => closure
    | fuel + 1 =>
      match n.lookup (s, EPSILON) with
      | none => epsAux n fuel closure rest
      | some nexts => epsAux n fuel (closure ∪ nexts) (rest ++ finsetToList (nexts \ closure))

/-- Every state appearing in some target set of the transition map; the
worklist states discovered by `epsilon_closure` all come from this pool. -/
def NFA.allTargets (n : NFA) : Finset Nat :=
  n.tfnDom.biUnion n.tfn

/-- Sufficient fuel for the worklist loop started on `S`. -/
def epsFuel (n : NFA) (S : Finset Nat) : Nat :=
  (n.allTargets \ S).card + S.card

/-- `NFA::epsilon_closure`: closure starts as `S`, worklist as its elements. -/
def NFA.epsilon_closure (n : NFA) (S : Finset Nat) : Finset Nat :=
  epsAux n (epsFuel n S) S (finsetToList S)

/-- Contribution of one closure state to the new state set in `NFA::simulate`:
the targets of `(st, c)`, or nothing on a lookup miss (the `None => ()` arm). -/
def NFA.targetsFor (n : NFA) (st : Nat) (c : Char) : Finset Nat :=
  match n.lookup (st, c) with
  | some t => t
  | none => ∅

/-- One iteration of the symbol loop of `NFA::simulate`: union, over the
epsilon-closure of the current set, of the targets for `(state, symbol)`. -/
def NFA.stepSymbol (n : NFA) (current : Finset Nat) (c : Char) : Finset Nat :=
  (n.epsilon_closure current).biUnion fun st => n.targetsFor st c

/-- `NFA::simulate`. -/
def NFA.simulate (n : NFA) (input : List Char) : Except InputError SimulationResult :=
  match n.validate_input input with
  | .error e => .error e
  | .ok _ =>
    let final := input.foldl n.stepSymbol {n.start}
    let fec := n.epsilon_closure final
    if (n.accept ∩ fec).card = 0 then .ok .Rejected else .ok .Accepted

/-- Loop measure for the worklist: states of the target pool not yet in the
closure, plus pending worklist entries.  It strictly decreases every
iteration. -/
def epsMeasure (n : NFA) (closure : Finset Nat) (worklist : List Nat) : Nat :=
  (n.allTargets \ closure).card + worklist.length

/-- A single epsilon step of the transition relation: `b` is an epsilon-target
of `a` in the transition map. -/
def epsStep (n : NFA) (a b : Nat) : Prop :=
  (a, EPSILON) ∈ n.tfnDom ∧ b ∈ n.tfn (a, EPSILON)

/-- Specification-side epsilon closure (from the spec's words): states
reachable from `S` by zero or more epsilon transitions. -/
def specEpsReach (n : NFA) (S : Set Nat) : Set Nat :=
  { x | ∃ s ∈ S, Relation.ReflTransGen (epsStep n) s x }

/-- Specification-side symbol step (from the spec's words): the union, over
every state in the epsilon-closure of the current set, of the transition
targets for `(state, symbol)`. -/
def specSymbolStep (n : NFA) (current : Set Nat) (c : Char) : Set Nat :=
  { t | ∃ st ∈ specEpsReach n current, (st, c) ∈ n.tfnDom ∧ t ∈ n.tfn (st, c) }

/-- Specification-side acceptance (from the spec's words): some accept state
lies in the epsilon-closure of the set reached after consuming the input. -/
def specAccepts (n : NFA) (input : List Char) : Prop :=
  ∃ a ∈ n.accept, a ∈ specEpsReach n (input.foldl (specSymbolStep n) {n.start})

/-- Specification-side DFA run (from the spec's words): start at `st`, follow
the transition map once per symbol, staying put on a missing entry. -/
def specDFAFinal (d : DFA) : Nat → List Char → Nat
  | st, [] => st
  | st, c :: rest => specDFAFinal d (if (st, c) ∈ d.tfnDom then d.tfn (st, c) else st) rest

/-! Concrete automata taken from the repository's unit tests. -/

/-- Key set of the two-state NFA of `simulate_fails_on_invalid_input`. -/
def cexDom : Finset (Nat × Char) := {(0, '0'), (0, '1'), (1, '0'), (1, '1')}

/-- Transition targets of the two-state NFA of `simulate_fails_on_invalid_input`. -/
def cexTfn : Nat × Char → Finset Nat := fun k =>
  if k = (0, '0') then {1} else if k = (0, '1') then {1}
  else if k = (1, '0') then {0} else if k = (1, '1') then {0} else ∅

/-- The NFA value `NFA::new(2, 0, {0}, {'0','1'}, cexTfn)` constructs. -/
def nfaCex : NFA :=
  { states := Finset.range 2, start := 0, accept := {0}
    alphabet := insert EPSILON {'0', '1'}, tfnDom := cexDom, tfn := cexTfn }

/-- Key set of the epsilon-closure example (`0 -ε→ {1}`, `1 -ε→ {2,3}`). -/
def ecDom : Finset (Nat × Char) := {(0, EPSILON), (1, EPSILON)}

/-- Targets of the epsilon-closure example. -/
def ecTfn : Nat × Char → Finset Nat := fun k =>
  if k = (0, EPSILON) then {1} else if k = (1, EPSILON) then {2, 3} else ∅

/-- The four-state NFA carrying only the example's epsilon transitions. -/
def nfaEC : NFA :=
  { states := Finset.range 4, start := 0, accept := ∅
    alphabet := insert EPSILON ∅, tfnDom := ecDom, tfn := ecTfn }

/-- Key set of an NFA with the epsilon cycle `0 -ε→ 1 -ε→ 0`. -/
def cycDom : Finset (Nat × Char) := {(0, EPSILON), (1, EPSILON)}

/-- Targets of the epsilon-cycle NFA. -/
def cycTfn : Nat × Char → Finset Nat := fun k =>
  if k = (0, EPSILON) then {1} else if k = (1, EPSILON) then {0} else ∅

/-- Two-state NFA whose epsilon transitions form the cycle `0 ↔ 1`. -/
def nfaCyc : NFA :=
  { states := Finset.range 2, start := 0, accept := ∅
    alphabet := insert EPSILON ∅, tfnDom := cycDom, tfn := cycTfn }

/-- Key set of the "ends in 11" NFA from the tests. -/
def dom11 : Finset (Nat × Char) := {(0, '0'), (0, '1'), (1, '1')}

/-- Targets of the "ends in 11" NFA. -/
def tfn11 : Nat × Char → Finset Nat := fun k =>
  if k = (0, '0') then {0} else if k = (0, '1') then {0, 1}
  else if k = (1, '1') then {2} else ∅

/-- The NFA value `NFA::new(3, 0, {2}, {'0','1'}, tfn11)` constructs. -/
def nfa11 : NFA :=
  { states := Finset.range 3, start := 0, accept := {2}
    alphabet := insert EPSILON {'0', '1'}, tfnDom := dom11, tfn := tfn11 }

/-- Key set of the even-length parity DFA from the tests. -/
def domEven : Finset (Nat × Char) := {(0, '0'), (0, '1'), (1, '0'), (1, '1')}

/-- Transition function of the even-length parity DFA. -/
def tfnEven : Nat × Char → Nat := fun k => if k.1 = 0 then 1 else 0

/-- The DFA value `DFA::new(2, 0, {0}, {'0','1'}, tfnEven)` constructs. -/
def dfaEven : DFA :=
  { states := Finset.range 2, start := 0, accept := {0}
    alphabet := {'0', '1'}, tfnDom := domEven, tfn := tfnEven }

lemma mem_finsetToList {s : Finset Nat} {x : Nat} : x ∈ finsetToList s ↔ x ∈ s := by
  unfold finsetToList
  simp only [List.mem_filter, List.mem_range, decide_eq_true_eq, and_iff_right_iff_imp]
  intro hx
  exact Nat.lt_succ_of_le (Finset.le_sup (f := id) hx)

lemma length_finsetToList (s : Finset Nat) : (finsetToList s).length = s.card := by
  have hnd : (finsetToList s).Nodup := List.Nodup.filter _ (List.nodup_range _)
  have h1 : (finsetToList s).toFinset = s := by
    ext x; simp [List.mem_toFinset, mem_finsetToList]
  calc (finsetToList s).length = (finsetToList s).toFinset.card :=
        (List.toFinset_card_of_nodup hnd).symm
    _ = s.card := by rw [h1]

lemma nfa_lookup_eq_some {n : NFA} {k : Nat × Char} {v : Finset Nat} :
    n.lookup k = some v ↔ k ∈ n.tfnDom ∧ v = n.tfn k := by
  unfold NFA.lookup; split <;> simp_all [eq_comm]

lemma nfa_lookup_eq_none {n : NFA} {k : Nat × Char} :
    n.lookup k = none ↔ k ∉ n.tfnDom := by
  unfold NFA.lookup; split <;> simp_all

lemma epsMeasure_step_some (n : NFA) (closure : Finset Nat) (s : Nat) (rest : List Nat)
    (nexts : Finset Nat) (h : n.lookup (s, EPSILON) = some nexts) :
    epsMeasure n (closure ∪ nexts) (rest ++ finsetToList (nexts \ closure)) + 1 =
      epsMeasure n closure (s :: rest) := by
  obtain ⟨hdom, hv⟩ := nfa_lookup_eq_some.mp h
  subst hv
  have hsubT : n.tfn (s, EPSILON) ⊆ n.allTargets := fun x hx =>
    Finset.mem_biUnion.mpr ⟨(s, EPSILON), hdom, hx⟩
  have h1 : n.allTargets \ (closure ∪ n.tfn (s, EPSILON)) =
      (n.allTargets \ closure) \ (n.tfn (s, EPSILON) \ closure) := by
    ext x; simp only [Finset.mem_sdiff, Finset.mem_union]; tauto
  have h2 : n.tfn (s, EPSILON) \ closure ⊆ n.allTargets \ closure :=
    Finset.sdiff_subset_sdiff hsubT (Finset.Subset.refl _)
  have h3 : (n.allTargets \ (closure ∪ n.tfn (s, EPSILON))).card =
      (n.allTargets \ closure).card - (n.tfn (s, EPSILON) \ closure).card := by
    rw [h1, Finset.card_sdiff h2]
  have h4 : (n.tfn (s, EPSILON) \ closure).card ≤ (n.allTargets \ closure).card :=
    Finset.card_le_card h2
  unfold epsMeasure
  rw [List.length_append, length_finsetToList, h3, List.length_cons]
  omega

lemma epsAux_sound {n : NFA} :
    ∀ (fuel : Nat) (closure : Finset Nat) (worklist : List Nat),
      (∀ y ∈ worklist, y ∈ closure) →
      ∀ x ∈ epsAux n fuel closure worklist,
        ∃ y ∈ closure, Relation.ReflTransGen (epsStep n) y x := by
  intro fuel
  induction fuel with
  | zero =>
    intro closure worklist hw x hx
    cases worklist with
    | nil => exact ⟨x, by simpa [epsAux] using hx, Relation.ReflTransGen.refl⟩
    | cons s rest => exact ⟨x, by simpa [epsAux] using hx, Relation.ReflTransGen.refl⟩
  | succ fuel ih =>
    intro closure worklist hw x hx
    cases worklist with
    | nil => exact ⟨x, by simpa [epsAux] using hx, Relation.ReflTransGen.refl⟩
    | cons s rest =>
      cases hl : n.lookup (s, EPSILON) with
      | none =>
        have hx' : x ∈ epsAux n fuel closure rest := by simpa [epsAux, hl] using hx
        exact ih closure rest (fun y hy => hw y (List.mem_cons_of_mem _ hy)) x hx'
      | some nexts =>
        have hx' : x ∈ epsAux n fuel (closure ∪ nexts)
            (rest ++ finsetToList (nexts \ closure)) := by
          simpa [epsAux, hl] using hx
        have hw' : ∀ y ∈ rest ++ finsetToList (nexts \ closure), y ∈ closure ∪ nexts := by
          intro y hy
          rcases List.mem_append.mp hy with h | h
          · exact Finset.mem_union_left _ (hw y (List.mem_cons_of_mem _ h))
          · exact Finset.mem_union_right _ (Finset.mem_sdiff.mp (mem_finsetToList.mp h)).1
        obtain ⟨y, hy, hpath⟩ := ih _ _ hw' x hx'
        rcases Finset.mem_union.mp hy with h | h
        · exact ⟨y, h, hpath⟩
        · obtain ⟨hdom, hv⟩ := nfa_lookup_eq_some.mp hl
          refine ⟨s, hw s (List.mem_cons_self _ _), Relation.ReflTransGen.head ⟨hdom, ?_⟩ hpath⟩
          rw [← hv]; exact h

lemma epsAux_complete {n : NFA} :
    ∀ (fuel : Nat) (closure : Finset Nat) (worklist : List Nat),
      epsMeasure n closure worklist ≤ fuel →
      (∀ y ∈ worklist, y ∈ closure) →
      (∀ y ∈ closure, y ∉ worklist → ∀ z, epsStep n y z → z ∈ closure) →
      closure ⊆ epsAux n fuel closure worklist ∧
        ∀ y ∈ epsAux n fuel closure worklist, ∀ z, epsStep n y z →
          z ∈ epsAux n fuel closure worklist := by
  intro fuel
  induction fuel with
  | zero =>
    intro closure worklist hm hw hcl
    cases worklist with
    | nil =>
      refine ⟨by simp [epsAux], ?_⟩
      intro y hy z hz
      simp only [epsAux] at hy ⊢
      exact hcl y hy (by simp) z hz
    | cons s rest =>
      exfalso
      unfold epsMeasure at hm
      rw [List.length_cons] at hm
      omega
  | succ fuel ih =>
    intro closure worklist hm hw hcl
    cases worklist with
    | nil =>
      refine ⟨by simp [epsAux], ?_⟩
      intro y hy z hz
      simp only [epsAux] at hy ⊢
      exact hcl y hy (by simp) z hz
    | cons s rest =>
      cases hl : n.lookup (s, EPSILON) with
      | none =>
        have heq : epsAux n (fuel + 1) closure (s :: rest) = epsAux n fuel closure rest := by
          simp [epsAux, hl]
        rw [heq]
        apply ih closure rest
        · unfold epsMeasure at hm ⊢
          rw [List.length_cons] at hm
          omega
        · exact fun y hy => hw y (List.mem_cons_of_mem _ hy)
        · intro y hy hyrest z hz
          by_cases hys : y = s
          · subst hys
            exact absurd hz.1 (nfa_lookup_eq_none.mp hl)
          · exact hcl y hy (by simp [List.mem_cons, hys, hyrest]) z hz
      | some nexts =>
        have heq : epsAux n (fuel + 1) closure (s :: rest) =
            epsAux n fuel (closure ∪ nexts) (rest ++ finsetToList (nexts \ closure)) := by
          simp [epsAux, hl]
        rw [heq]
        obtain ⟨hdom, hv⟩ := nfa_lookup_eq_some.mp hl
        have hstep := epsMeasure_step_some n closure s rest nexts hl
        have hmeas : epsMeasure n (closure ∪ nexts)
            (rest ++ finsetToList (nexts \ closure)) ≤ fuel := by omega
        have hw' : ∀ y ∈ rest ++ finsetToList (nexts \ closure), y ∈ closure ∪ nexts := by
          intro y hy
          rcases List.mem_append.mp hy with h | h
          · exact Finset.mem_union_left _ (hw y (List.mem_cons_of_mem _ h))
          · exact Finset.mem_union_right _ (Finset.mem_sdiff.mp (mem_finsetToList.mp h)).1
        have hcl' : ∀ y ∈ closure ∪ nexts, y ∉ rest ++ finsetToList (nexts \ closure) →
            ∀ z, epsStep n y z → z ∈ closure ∪ nexts := by
          intro y hy hny z hz
          by_cases hys : y = s
          · subst hys
            refine Finset.mem_union_right _ ?_
            rw [hv]; exact hz.2
          · have hyrest : y ∉ rest := fun h => hny (List.mem_append.mpr (Or.inl h))
            by_cases hyc : y ∈ closure
            · exact Finset.mem_union_left _
                (hcl y hyc (by simp [List.mem_cons, hys, hyrest]) z hz)
            · rcases Finset.mem_union.mp hy with hc | hn
              · exact absurd hc hyc
              · exact absurd (List.mem_append.mpr (Or.inr
                  (mem_finsetToList.mpr (Finset.mem_sdiff.mpr ⟨hn, hyc⟩)))) hny
        obtain ⟨hsub, hclosed⟩ := ih _ _ hmeas hw' hcl'
        exact ⟨Finset.Subset.trans Finset.subset_union_left hsub, hclosed⟩

lemma epsAux_fuel_irrel {n : NFA} :
    ∀ (fuel₁ fuel₂ : Nat) (closure : Finset Nat) (worklist : List Nat),
      epsMeasure n closure worklist ≤ fuel₁ → epsMeasure n closure worklist ≤ fuel₂ →
      epsAux n fuel₁ closure worklist = epsAux n fuel₂ closure worklist := by
  intro fuel₁
  induction fuel₁ with
  | zero =>
    intro fuel₂ closure worklist h1 h2
    cases worklist with
    | nil => cases fuel₂ <;> simp [epsAux]
    | cons s rest =>
      exfalso
      unfold epsMeasure at h1
      rw [List.length_cons] at h1
      omega
  | succ fuel ih =>
    intro fuel₂ closure worklist h1 h2
    cases worklist with
    | nil => cases fuel₂ <;> simp [epsAux]
    | cons s rest =>
      cases fuel₂ with
      | zero =>
        exfalso
        unfold epsMeasure at h2
        rw [List.length_cons] at h2
        omega
      | succ fuel₂ =>
        cases hl : n.lookup (s, EPSILON) with
        | none =>
          have e1 : epsAux n (fuel + 1) closure (s :: rest) = epsAux n fuel closure rest := by
            simp [epsAux, hl]
          have e2 : epsAux n (fuel₂ + 1) closure (s :: rest) = epsAux n fuel₂ closure rest := by
            simp [epsAux, hl]
          rw [e1, e2]
          apply ih
          · unfold epsMeasure at h1 ⊢
            rw [List.length_cons] at h1
            omega
          · unfold epsMeasure at h2 ⊢
            rw [List.length_cons] at h2
            omega
        | some nexts =>
          have e1 : epsAux n (fuel + 1) closure (s :: rest) =
              epsAux n fuel (closure ∪ nexts) (rest ++ finsetToList (nexts \ closure)) := by
            simp [epsAux, hl]
          have e2 : epsAux n (fuel₂ + 1) closure (s :: rest) =
              epsAux n fuel₂ (closure ∪ nexts) (rest ++ finsetToList (nexts \ closure)) := by
            simp [epsAux, hl]
          rw [e1, e2]
          have hstep := epsMeasure_step_some n closure s rest nexts hl
          apply ih <;> omega

lemma epsMeasure_init (n : NFA) (S : Finset Nat) :
    epsMeasure n S (finsetToList S) = epsFuel n S := by
  unfold epsMeasure epsFuel
  rw [length_finsetToList]

lemma epsAux_run (n : NFA) (S : Finset Nat) :
    ∀ fuel, epsFuel n S ≤ fuel → epsAux n fuel S (finsetToList S) = n.epsilon_closure S := by
  intro fuel h
  unfold NFA.epsilon_closure
  exact epsAux_fuel_irrel fuel (epsFuel n S) S (finsetToList S)
    (by rw [epsMeasure_init]; exact h) (le_of_eq (epsMeasure_init n S))

lemma mem_epsilon_closure {n : NFA} {S : Finset Nat} {x : Nat} :
    x ∈ n.epsilon_closure S ↔ ∃ s ∈ S, Relation.ReflTransGen (epsStep n) s x := by
  constructor
  · intro hx
    exact epsAux_sound (epsFuel n S) S (finsetToList S)
      (fun y hy => mem_finsetToList.mp hy) x hx
  · rintro ⟨s, hs, hp⟩
    obtain ⟨hsub, hclosed⟩ := epsAux_complete (n := n) (epsFuel n S) S (finsetToList S)
      (le_of_eq (epsMeasure_init n S))
      (fun y hy => mem_finsetToList.mp hy)
      (fun y hy hny _ _ => absurd (mem_finsetToList.mpr hy) hny)
    show x ∈ epsAux n (epsFuel n S) S (finsetToList S)
    induction hp with
    | refl => exact hsub hs
    | tail hab hbc ihR => exact hclosed _ ihR _ hbc

lemma mem_targetsFor {n : NFA} {st : Nat} {c : Char} {t : Nat} :
    t ∈ n.targetsFor st c ↔ (st, c) ∈ n.tfnDom ∧ t ∈ n.tfn (st, c) := by
  by_cases hm : (st, c) ∈ n.tfnDom <;> simp [NFA.targetsFor, NFA.lookup, hm]

lemma mem_stepSymbol {n : NFA} {current : Finset Nat} {c : Char} {t : Nat} :
    t ∈ n.stepSymbol current c ↔
      ∃ st, (∃ s ∈ current, Relation.ReflTransGen (epsStep n) s st) ∧
        (st, c) ∈ n.tfnDom ∧ t ∈ n.tfn (st, c) := by
  unfold NFA.stepSymbol
  simp only [Finset.mem_biUnion, mem_targetsFor, mem_epsilon_closure]

lemma coe_stepSymbol (n : NFA) (current : Finset Nat) (c : Char) :
    (↑(n.stepSymbol current c) : Set Nat) = specSymbolStep n ↑current c := by
  ext t
  simp only [Finset.mem_coe, mem_stepSymbol, specSymbolStep, specEpsReach,
    Set.mem_setOf_eq]

lemma coe_foldl_stepSymbol (n : NFA) (input : List Char) :
    ∀ A : Finset Nat,
      (↑(input.foldl n.stepSymbol A) : Set Nat) = input.foldl (specSymbolStep n) ↑A := by
  induction input with
  | nil => intro A; rfl
  | cons c rest ih =>
    intro A
    simp only [List.foldl_cons]
    rw [← coe_stepSymbol, ih]

lemma simulate_of_valid {n : NFA} {input : List Char} (h : ∀ c ∈ input, c ∈ n.alphabet) :
    n.simulate input =
      if (n.accept ∩ n.epsilon_closure (input.foldl n.stepSymbol {n.start})).card = 0
      then .ok .Rejected else .ok .Accepted := by
  unfold NFA.simulate NFA.validate_input
  rw [if_pos h]

lemma simulate_accepted_iff_specAccepts {n : NFA} {input : List Char}
    (h : ∀ c ∈ input, c ∈ n.alphabet) :
    n.simulate input = .ok .Accepted ↔ specAccepts n input := by
  have hcoe : (↑(input.foldl n.stepSymbol {n.start}) : Set Nat) =
      input.foldl (specSymbolStep n) ({n.start} : Set Nat) := by
    rw [coe_foldl_stepSymbol, Finset.coe_singleton]
  rw [simulate_of_valid h]
  unfold specAccepts
  rw [← hcoe]
  constructor
  · intro hr
    by_cases hc : (n.accept ∩ n.epsilon_closure (input.foldl n.stepSymbol {n.start})).card = 0
    · rw [if_pos hc] at hr; simp at hr
    · obtain ⟨a, ha⟩ := Finset.card_ne_zero.mp hc
      obtain ⟨ha1, ha2⟩ := Finset.mem_inter.mp ha
      obtain ⟨s, hs, hp⟩ := mem_epsilon_closure.mp ha2
      exact ⟨a, ha1, s, Finset.mem_coe.mpr hs, hp⟩
  · rintro ⟨a, ha, s, hs, hp⟩
    have hmem : a ∈ n.accept ∩ n.epsilon_closure (input.foldl n.stepSymbol {n.start}) :=
      Finset.mem_inter.mpr ⟨ha, mem_epsilon_closure.mpr ⟨s, Finset.mem_coe.mp hs, hp⟩⟩
    rw [if_neg (Finset.card_ne_zero.mpr ⟨a, hmem⟩)]

lemma dfa_lookup_eq_some {d : DFA} {k : Nat × Char} {v : Nat} :
    d.lookup k = some v ↔ k ∈ d.tfnDom ∧ v = d.tfn k := by
  unfold DFA.lookup; split <;> simp_all [eq_comm]

lemma dfa_lookup_eq_none {d : DFA} {k : Nat × Char} :
    d.lookup k = none ↔ k ∉ d.tfnDom := by
  unfold DFA.lookup; split <;> simp_all

lemma DFA.step_eq_ite (d : DFA) (st : Nat) (c : Char) :
    d.step st c = if (st, c) ∈ d.tfnDom then d.tfn (st, c) else st := by
  by_cases hm : (st, c) ∈ d.tfnDom <;> simp [DFA.step, DFA.lookup, hm]

lemma foldl_step_eq_specDFAFinal (d : DFA) :
    ∀ (input : List Char) (st : Nat), input.foldl d.step st = specDFAFinal d st input := by
  intro input
  induction input with
  | nil => intro st; rfl
  | cons c rest ih =>
    intro st
    simp only [List.foldl_cons, specDFAFinal]
    rw [DFA.step_eq_ite, ih]

lemma dfa_new_ok_inv {numStates startIdx : Nat} {accept : Finset Nat}
    {alphabet : Finset Char} {dom : Finset (Nat × Char)} {tfn : Nat × Char → Nat}
    {d : DFA} (h : DFA.new numStates startIdx accept alphabet dom tfn = .ok d) :
    d = { states := Finset.range numStates, start := startIdx, accept := accept,
          alphabet := alphabet, tfnDom := dom, tfn := tfn } ∧
      startIdx < numStates ∧ (∀ s ∈ accept, s < numStates) ∧
      (∀ s ∈ Finset.range numStates, ∀ a ∈ alphabet, (s, a) ∈ dom) ∧
      dom.card = numStates * alphabet.card ∧ (∀ k ∈ dom, tfn k < numStates) := by
  unfold DFA.new DFA.validate at h
  split_ifs at h with h1 h2 h3 h4
  push_neg at h4
  cases h
  exact ⟨rfl, h1, h2, h3, h4.1, h4.2⟩

lemma nfa_new_ok_inv {numStates startIdx : Nat} {accept : Finset Nat}
    {alphabet : Finset Char} {dom : Finset (Nat × Char)} {tfn : Nat × Char → Finset Nat}
    {n : NFA} (h : NFA.new numStates startIdx accept alphabet dom tfn = .ok n) :
    n = { states := Finset.range numStates, start := startIdx, accept := accept,
          alphabet := insert EPSILON alphabet, tfnDom := dom, tfn := tfn } ∧
      startIdx < numStates ∧ (∀ s ∈ accept, s < numStates) ∧ EPSILON ∉ alphabet ∧
      (∀ k ∈ dom, k.1 < numStates ∧ (k.2 = EPSILON ∨ k.2 ∈ alphabet)) ∧
      (∀ k ∈ dom, ∀ t ∈ tfn k, t < numStates) := by
  unfold NFA.new NFA.validate_nfa at h
  split_ifs at h with h1 h2 h3 h4 h5
  cases h
  exact ⟨rfl, h1, h2, h3, h4, h5⟩

lemma validate_input_invalid_iff {n : NFA} {input : List Char} :
    n.validate_input input = .error .InvalidSymbol ↔ ∃ c ∈ input, c ∉ n.alphabet := by
  unfold NFA.validate_input
  split_ifs with hall
  · simp only [reduceCtorEq, false_iff, not_exists]
    intro c hc
    exact hc.2 (hall c hc.1)
  · push_neg at hall
    simpa using hall

lemma simulate_invalid_iff {n : NFA} {input : List Char} :
    n.simulate input = .error .InvalidSymbol ↔ ∃ c ∈ input, c ∉ n.alphabet := by
  rw [← validate_input_invalid_iff]
  unfold NFA.simulate NFA.validate_input
  split_ifs with hall
  · dsimp only
    constructor
    · intro hr
      split_ifs at hr
    · intro hr
      simp at hr
  · simp


/-- C1, counterexample: the constructed two-state NFA with declared alphabet
containing just '0' and '1' is fed the one-character input consisting of the
reserved epsilon character.  That character is not a member of the declared
(non-epsilon) alphabet, yet `simulate` returns Ok(Rejected) instead of
Err(InvalidSymbol): `validate_input` checks membership in the stored alphabet,
which includes epsilon. -/
theorem claim_C1_counterexample :
    Except.map (fun n => n.simulate [EPSILON]) (NFA.new 2 0 {0} {'0', '1'} cexDom cexTfn) =
      .ok (.ok .Rejected) ∧ EPSILON ∉ ({'0', '1'} : Finset Char) :=
  ⟨rfl, by decide⟩

/-- C1, amended: for every constructed NFA and input, `simulate` returns
Err(InvalidSymbol) if and only if some character of the input is neither the
reserved epsilon character nor a member of the declared alphabet; and when it
errors, the error coincides with the verdict of the upfront `validate_input`
pass, which runs before any state transition is applied. -/
theorem claim_C1_theorem : ∀ (numStates startIdx : Nat) (accept : Finset Nat)
    (alphabet : Finset Char) (dom : Finset (Nat × Char)) (tfn : Nat × Char → Finset Nat)
    (n : NFA), NFA.new numStates startIdx accept alphabet dom tfn = .ok n →
    ∀ input : List Char,
      (n.simulate input = .error .InvalidSymbol ↔
        ∃ c ∈ input, ¬(c = EPSILON ∨ c ∈ alphabet)) ∧
      (n.simulate input = .error .InvalidSymbol ↔
        n.validate_input input = .error .InvalidSymbol) := by
  intro numStates startIdx accept alphabet dom tfn n h input
  obtain ⟨hrec, -⟩ := nfa_new_ok_inv h
  have halph : n.alphabet = insert EPSILON alphabet := by rw [hrec]
  refine ⟨?_, ?_⟩
  · rw [simulate_invalid_iff, halph]
    simp [Finset.mem_insert]
  · rw [simulate_invalid_iff, validate_input_invalid_iff]

/-- C1, witness: the amended theorem applied to the two-state test NFA on
input "a". -/
theorem claim_C1_witness :
    NFA.new 2 0 {0} {'0', '1'} cexDom cexTfn = .ok nfaCex ∧
      (nfaCex.simulate ['a'] = .error .InvalidSymbol ↔
        ∃ c ∈ ['a'], ¬(c = EPSILON ∨ c ∈ ({'0', '1'} : Finset Char))) :=
  ⟨rfl, (claim_C1_theorem 2 0 {0} {'0', '1'} cexDom cexTfn nfaCex (by rfl) ['a']).1⟩

/-- C2: for every NFA and every set of states, `epsilon_closure` computes
exactly the states reachable by zero or more epsilon transitions; it always
contains the starting set; and the concrete example with epsilon transitions
0→(1) and 1→(2,3), built by `NFA::new`, has closures (0,1,2,3), (1,2,3),
and (2) for starting sets (0), (1), (2). -/
theorem claim_C2_theorem :
    (∀ (n : NFA) (S : Finset Nat) (x : Nat),
      x ∈ n.epsilon_closure S ↔ ∃ s ∈ S, Relation.ReflTransGen (epsStep n) s x) ∧
    (∀ (n : NFA) (S : Finset Nat), S ⊆ n.epsilon_closure S) ∧
    NFA.new 4 0 ∅ ∅ ecDom ecTfn = .ok nfaEC ∧
    nfaEC.epsilon_closure {0} = {0, 1, 2, 3} ∧
    nfaEC.epsilon_closure {1} = {1, 2, 3} ∧
    nfaEC.epsilon_closure {2} = {2} :=
  ⟨fun _ _ _ => mem_epsilon_closure,
   fun _ _ _ hs => mem_epsilon_closure.mpr ⟨_, hs, Relation.ReflTransGen.refl⟩,
   rfl,
   Finset.Subset.antisymm (by decide) (by decide),
   Finset.Subset.antisymm (by decide) (by decide),
   Finset.Subset.antisymm (by decide) (by decide)⟩

/-- C2, witness: the reachability characterisation instantiated on the
example NFA. -/
theorem claim_C2_witness :
    3 ∈ nfaEC.epsilon_closure {0} ↔
      ∃ s ∈ ({0} : Finset Nat), Relation.ReflTransGen (epsStep nfaEC) s 3 :=
  claim_C2_theorem.1 nfaEC {0} 3

/-- C3: for every NFA and every input all of whose symbols pass validation,
`simulate` returns Ok, and it returns Accepted exactly when the
specification-level simulation accepts: fold the per-symbol step
(epsilon-closure, then union of transition targets, empty sets flowing
through) from the singleton start set, and test whether the epsilon-closure
of the final set meets the accept set. -/
theorem claim_C3_theorem : ∀ (n : NFA) (input : List Char),
    (∀ c ∈ input, c ∈ n.alphabet) →
    (n.simulate input = .ok .Accepted ∨ n.simulate input = .ok .Rejected) ∧
    (n.simulate input = .ok .Accepted ↔ specAccepts n input) := by
  intro n input h
  refine ⟨?_, simulate_accepted_iff_specAccepts h⟩
  rw [simulate_of_valid h]
  by_cases hc : (n.accept ∩ n.epsilon_closure (input.foldl n.stepSymbol {n.start})).card = 0
  · exact Or.inr (by rw [if_pos hc])
  · exact Or.inl (by rw [if_neg hc])

/-- C3, witness: the theorem applied to the "ends in 11" NFA on input "0011". -/
theorem claim_C3_witness :
    (nfa11.simulate ['0', '0', '1', '1'] = .ok .Accepted ∨
      nfa11.simulate ['0', '0', '1', '1'] = .ok .Rejected) ∧
    (nfa11.simulate ['0', '0', '1', '1'] = .ok .Accepted ↔
      specAccepts nfa11 ['0', '0', '1', '1']) :=
  claim_C3_theorem nfa11 ['0', '0', '1', '1'] (by decide)

/-- C4: `DFA::simulate` accepts exactly when the state reached by following
the transition map once per symbol from the start state (staying put on a
lookup miss) lies in the accept set; on the empty input it accepts exactly
when the start state is accepting; and a missing `(state, symbol)` entry
leaves the current state unchanged. -/
theorem claim_C4_theorem : ∀ (d : DFA) (input : List Char),
    (d.simulate input =
      if specDFAFinal d d.start input ∈ d.accept then .Accepted else .Rejected) ∧
    (d.simulate [] = .Accepted ↔ d.start ∈ d.accept) ∧
    (∀ st c, (st, c) ∉ d.tfnDom → d.step st c = st) := by
  intro d input
  refine ⟨?_, ?_, ?_⟩
  · unfold DFA.simulate
    rw [foldl_step_eq_specDFAFinal]
  · unfold DFA.simulate
    simp only [List.foldl_nil]
    split_ifs with h <;> simp [h]
  · intro st c hm
    rw [DFA.step_eq_ite, if_neg hm]

/-- C4, witness: the theorem applied to the parity DFA on input "0011" and to
the missing key (0, 'z'). -/
theorem claim_C4_witness :
    (dfaEven.simulate ['0', '0', '1', '1'] =
      if specDFAFinal dfaEven dfaEven.start ['0', '0', '1', '1'] ∈ dfaEven.accept
      then .Accepted else .Rejected) ∧
    dfaEven.step 0 'z' = 0 :=
  ⟨(claim_C4_theorem dfaEven ['0', '0', '1', '1']).1,
   (claim_C4_theorem dfaEven []).2.2 0 'z' (by decide)⟩

/-- C5: the worklist loop of `epsilon_closure` terminates for every NFA,
including in the presence of epsilon cycles: `epsFuel` loop iterations always
suffice (every further fuel budget computes the same closure, so the loop has
reached its fixpoint with an empty worklist), and the epsilon-cyclic NFA
0 ↔ 1 gets the finite closure (0, 1). -/
theorem claim_C5_theorem :
    (∀ (n : NFA) (S : Finset Nat) (fuel : Nat),
      epsFuel n S ≤ fuel → epsAux n fuel S (finsetToList S) = n.epsilon_closure S) ∧
    nfaCyc.epsilon_closure {0} = {0, 1} :=
  ⟨fun n S fuel h => epsAux_run n S fuel h,
   Finset.Subset.antisymm (by decide) (by decide)⟩

/-- C5, witness: fuel 47 is enough for the cyclic example and computes the
same closure as `epsilon_closure`. -/
theorem claim_C5_witness :
    epsFuel nfaCyc {0} ≤ 47 ∧
      epsAux nfaCyc 47 {0} (finsetToList {0}) = nfaCyc.epsilon_closure {0} :=
  ⟨by decide, claim_C5_theorem.1 nfaCyc {0} 47 (by decide)⟩

/-- C6: `DFA::new` reports the first violated invariant in the fixed order
start range, accept range, totality, size-and-target range, and succeeds
exactly when all four hold. -/
theorem claim_C6_theorem : ∀ (numStates startIdx : Nat) (accept : Finset Nat)
    (alphabet : Finset Char) (dom : Finset (Nat × Char)) (tfn : Nat × Char → Nat),
    (DFA.new numStates startIdx accept alphabet dom tfn = .error .InvalidStartState ↔
      ¬ startIdx < numStates) ∧
    (DFA.new numStates startIdx accept alphabet dom tfn = .error .InvalidAcceptState ↔
      startIdx < numStates ∧ ¬ ∀ s ∈ accept, s < numStates) ∧
    (DFA.new numStates startIdx accept alphabet dom tfn = .error .NonTotalTransitionFunction ↔
      startIdx < numStates ∧ (∀ s ∈ accept, s < numStates) ∧
        ¬ ∀ s ∈ Finset.range numStates, ∀ a ∈ alphabet, (s, a) ∈ dom) ∧
    (DFA.new numStates startIdx accept alphabet dom tfn = .error .InvalidTransitionFunction ↔
      startIdx < numStates ∧ (∀ s ∈ accept, s < numStates) ∧
        (∀ s ∈ Finset.range numStates, ∀ a ∈ alphabet, (s, a) ∈ dom) ∧
        (¬ dom.card = numStates * alphabet.card ∨ ¬ ∀ k ∈ dom, tfn k < numStates)) ∧
    ((∃ d, DFA.new numStates startIdx accept alphabet dom tfn = .ok d) ↔
      startIdx < numStates ∧ (∀ s ∈ accept, s < numStates) ∧
        (∀ s ∈ Finset.range numStates, ∀ a ∈ alphabet, (s, a) ∈ dom) ∧
        dom.card = numStates * alphabet.card ∧ (∀ k ∈ dom, tfn k < numStates)) := by
  intro numStates startIdx accept alphabet dom tfn
  unfold DFA.new DFA.validate
  split_ifs with h1 h2 h3 h4 <;> refine ⟨?_, ?_, ?_, ?_, ?_⟩ <;> simp_all <;> tauto

/-- C6, witness: the characterisation instantiated on the parity DFA's raw
description, which satisfies all four invariants. -/
theorem claim_C6_witness :
    (∃ d, DFA.new 2 0 {0} {'0', '1'} domEven tfnEven = .ok d) ↔
      0 < 2 ∧ (∀ s ∈ ({0} : Finset Nat), s < 2) ∧
        (∀ s ∈ Finset.range 2, ∀ a ∈ ({'0', '1'} : Finset Char), (s, a) ∈ domEven) ∧
        domEven.card = 2 * ({'0', '1'} : Finset Char).card ∧
        (∀ k ∈ domEven, tfnEven k < 2) :=
  (claim_C6_theorem 2 0 {0} {'0', '1'} domEven tfnEven).2.2.2.2

/-- C7: `NFA::new` reports the first violated invariant in the fixed order
start range, accept range, reserved epsilon absent from the alphabet,
well-scoped transition keys, in-range transition targets, and succeeds
exactly when all five hold. -/
theorem claim_C7_theorem : ∀ (numStates startIdx : Nat) (accept : Finset Nat)
    (alphabet : Finset Char) (dom : Finset (Nat × Char)) (tfn : Nat × Char → Finset Nat),
    (NFA.new numStates startIdx accept alphabet dom tfn = .error .InvalidStartState ↔
      ¬ startIdx < numStates) ∧
    (NFA.new numStates startIdx accept alphabet dom tfn = .error .InvalidAcceptState ↔
      startIdx < numStates ∧ ¬ ∀ s ∈ accept, s < numStates) ∧
    (NFA.new numStates startIdx accept alphabet dom tfn = .error .ReservedCharacterInAlphabet ↔
      startIdx < numStates ∧ (∀ s ∈ accept, s < numStates) ∧ EPSILON ∈ alphabet) ∧
    (NFA.new numStates startIdx accept alphabet dom tfn = .error .InvalidTransitionFunction ↔
      startIdx < numStates ∧ (∀ s ∈ accept, s < numStates) ∧ EPSILON ∉ alphabet ∧
        (¬ (∀ k ∈ dom, k.1 < numStates ∧ (k.2 = EPSILON ∨ k.2 ∈ alphabet)) ∨
          ¬ ∀ k ∈ dom, ∀ t ∈ tfn k, t < numStates)) ∧
    ((∃ n, NFA.new numStates startIdx accept alphabet dom tfn = .ok n) ↔
      startIdx < numStates ∧ (∀ s ∈ accept, s < numStates) ∧ EPSILON ∉ alphabet ∧
        (∀ k ∈ dom, k.1 < numStates ∧ (k.2 = EPSILON ∨ k.2 ∈ alphabet)) ∧
        (∀ k ∈ dom, ∀ t ∈ tfn k, t < numStates)) := by
  intro numStates startIdx accept alphabet dom tfn
  unfold NFA.new NFA.validate_nfa
  split_ifs with h1 h2 h3 h4 h5 <;> refine ⟨?_, ?_, ?_, ?_, ?_⟩ <;> simp_all <;>
    first
      | tauto
      | exact ⟨fun x y hxy => ⟨(h4 x y hxy).1,
          fun hne => ((h4 x y hxy).2).resolve_left hne⟩, h5⟩

/-- C7, witness: the characterisation instantiated on a raw description whose
alphabet contains the reserved epsilon character. -/
theorem claim_C7_witness :
    NFA.new 1 0 ∅ {EPSILON} ∅ (fun _ => ∅) = .error .ReservedCharacterInAlphabet ↔
      0 < 1 ∧ (∀ s ∈ (∅ : Finset Nat), s < 1) ∧ EPSILON ∈ ({EPSILON} : Finset Char) :=
  (claim_C7_theorem 1 0 ∅ {EPSILON} ∅ (fun _ => ∅)).2.2.1

/-- C8: for every successfully constructed DFA and every input over its
alphabet, every `(currentState, symbol)` lookup performed by `simulate` hits
the transition map: whenever the input splits as `pre ++ c :: post`, the key
formed from the state reached after `pre` and the symbol `c` is in the map. -/
theorem claim_C8_theorem : ∀ (numStates startIdx : Nat) (accept : Finset Nat)
    (alphabet : Finset Char) (dom : Finset (Nat × Char)) (tfn : Nat × Char → Nat)
    (d : DFA), DFA.new numStates startIdx accept alphabet dom tfn = .ok d →
    ∀ (input : List Char), (∀ c ∈ input, c ∈ d.alphabet) →
    ∀ (pre : List Char) (c : Char) (post : List Char), input = pre ++ c :: post →
      (pre.foldl d.step d.start, c) ∈ d.tfnDom := by
  intro numStates startIdx accept alphabet dom tfn d h input hvalid pre c post heq
  obtain ⟨hrec, hstart, hacc, htotal, hcard, htargets⟩ := dfa_new_ok_inv h
  have hdstart : d.start < numStates := by rw [hrec]; exact hstart
  have hdtarg : ∀ k ∈ d.tfnDom, d.tfn k < numStates := by rw [hrec]; exact htargets
  have hdtotal : ∀ s < numStates, ∀ a ∈ d.alphabet, (s, a) ∈ d.tfnDom := by
    rw [hrec]
    intro s hs a ha
    exact htotal s (Finset.mem_range.mpr hs) a ha
  have hstates : ∀ (l : List Char) (st : Nat), st < numStates →
      l.foldl d.step st < numStates := by
    intro l
    induction l with
    | nil => intro st hst; simpa using hst
    | cons a rest ih =>
      intro st hst
      simp only [List.foldl_cons]
      apply ih
      rw [DFA.step_eq_ite]
      split_ifs with hmem
      · exact hdtarg _ hmem
      · exact hst
  have hc : c ∈ d.alphabet := hvalid c (heq ▸ List.mem_append.mpr (Or.inr (List.mem_cons_self c post)))
  exact hdtotal _ (hstates pre d.start hdstart) c hc

/-- C8, witness: the theorem applied to the parity DFA with input "01" split
after its first symbol. -/
theorem claim_C8_witness :
    (['0'].foldl dfaEven.step dfaEven.start, '1') ∈ dfaEven.tfnDom :=
  claim_C8_theorem 2 0 {0} {'0', '1'} domEven tfnEven dfaEven (by rfl)
    ['0', '1'] (by decide) ['0'] '1' [] rfl

/-- C9: every successfully constructed DFA satisfies the structural
invariants: start and accept states lie in the state set, the transition map
is total on states x alphabet, its size is exactly the product of the two
cardinalities, and every target lies in the state set.  (Simulation takes the
automaton immutably, so the invariants are preserved by construction.) -/
theorem claim_C9_theorem : ∀ (numStates startIdx : Nat) (accept : Finset Nat)
    (alphabet : Finset Char) (dom : Finset (Nat × Char)) (tfn : Nat × Char → Nat)
    (d : DFA), DFA.new numStates startIdx accept alphabet dom tfn = .ok d →
      d.start ∈ d.states ∧ (∀ a ∈ d.accept, a ∈ d.states) ∧
      (∀ s ∈ d.states, ∀ a ∈ d.alphabet, (s, a) ∈ d.tfnDom) ∧
      d.tfnDom.card = d.states.card * d.alphabet.card ∧
      (∀ k ∈ d.tfnDom, d.tfn k ∈ d.states) := by
  intro numStates startIdx accept alphabet dom tfn d h
  obtain ⟨hrec, hstart, hacc, htotal, hcard, htargets⟩ := dfa_new_ok_inv h
  subst hrec
  refine ⟨?_, ?_, ?_, ?_, ?_⟩
  · simpa [Finset.mem_range] using hstart
  · intro a ha
    simpa [Finset.mem_range] using hacc a ha
  · exact htotal
  · simpa [Finset.card_range] using hcard
  · intro k hk
    simpa [Finset.mem_range] using htargets k hk

/-- C9, witness: the invariants instantiated on the parity DFA. -/
theorem claim_C9_witness :
    dfaEven.start ∈ dfaEven.states ∧ (∀ a ∈ dfaEven.accept, a ∈ dfaEven.states) ∧
    (∀ s ∈ dfaEven.states, ∀ a ∈ dfaEven.alphabet, (s, a) ∈ dfaEven.tfnDom) ∧
    dfaEven.tfnDom.card = dfaEven.states.card * dfaEven.alphabet.card ∧
    (∀ k ∈ dfaEven.tfnDom, dfaEven.tfn k ∈ dfaEven.states) :=
  claim_C9_theorem 2 0 {0} {'0', '1'} domEven tfnEven dfaEven (by rfl)

/-- C10: with a state count of zero, both constructors fail with
InvalidStartState whatever the start index, accept set, alphabet, and
transition map are, so no automaton with zero states can be built. -/
theorem claim_C10_theorem : ∀ (startIdx : Nat) (accept : Finset Nat)
    (alphabet : Finset Char) (ddom : Finset (Nat × Char)) (dtfn : Nat × Char → Nat)
    (ndom : Finset (Nat × Char)) (ntfn : Nat × Char → Finset Nat),
    DFA.new 0 startIdx accept alphabet ddom dtfn = .error .InvalidStartState ∧
    NFA.new 0 startIdx accept alphabet ndom ntfn = .error .InvalidStartState := by
  intro startIdx accept alphabet ddom dtfn ndom ntfn
  refine ⟨?_, ?_⟩
  · simp [DFA.new, DFA.validate, Nat.not_lt_zero]
  · simp [NFA.new, NFA.validate_nfa, Nat.not_lt_zero]

end Fsim
